import Mathlib

/-!
# PIMEDebugConsole

A shallow embedding of `PIMELauncher/PIMEDebugConsole.cpp`: the `DebugConsole`
object (its pipe pointer, connection flag and the mutex-guarded
`pendingTextOutput_`), the libuv callbacks `connectPipe`, `onConnected`,
`onDataReceived`, `sendCommand`, and the `WM_DATA_RECEIVED` / `WM_COMMAND`
cases of `dialogWndProc`.

Bytes (`char`) and wide characters (`wchar_t`) are natural numbers.  Every
callback runs under `outputTextLock_` or on a single thread, so each one is an
atomic state transformer.  Calls into libuv and into the rich-edit control are
recorded in the state as the list of requests issued.
-/

namespace PIME

/-- One `char` of a `std::string`. -/
abbrev Byte := Nat

/-- One `wchar_t` of a `std::wstring`. -/
abbrev WChar := Nat

/-- A `COLORREF` value. -/
abbrev COLORREF := Nat

/-- The bytes of an ASCII string literal. -/
def ascii (s : String) : List Byte := s.toList.map Char.toNat

/-- The colour `RGB(r, g, b)` of `Windows.h`. -/
def RGB (r g b : Nat) : COLORREF := r % 256 + (g % 256) * 256 + (b % 256) * 65536

/-- Messages sent to the rich-edit control `richEdit_`. -/
inductive RichMsg where
  | setEventMask
  | setBkgndColor (clr : COLORREF)
  | setCharFormat (clr : COLORREF)
  | setSel
  | replaceSel (utext : List WChar)
  | scrollCaret
  deriving DecidableEq, Repr

/-- The `std::stringstream lines(pendingTextOutput_)` read by `getline`: the
characters not yet extracted and the two state bits the loop depends on. -/
structure StringStream where
  buf : List Byte
  eofbit : Bool
  failbit : Bool
  deriving DecidableEq, Repr

/-- The stream test `good()`. -/
def StringStream.good (is : StringStream) : Bool := !is.eofbit && !is.failbit

/-- The call `std::getline(lines, line)`: when the stream is not good the sentry
sets `failbit` and `str` is left alone; otherwise characters are extracted up to
the next `'\n'` (extracted and discarded) or to the end of the buffer (`eofbit`),
and `failbit` is set when nothing at all was extracted. -/
def getline (is : StringStream) (str : List Byte) : StringStream × List Byte :=
  if !is.good then ({ is with failbit := true }, str)
  else
    let line := is.buf.takeWhile (fun c => c != 10)
    match is.buf.dropWhile (fun c => c != 10) with
    | [] => ({ buf := [], eofbit := true, failbit := line.isEmpty }, line)
    | _ :: rest => ({ is with buf := rest }, line)

/-- The function `char_traits<char>::compare` on two runs of equal length. -/
def traitsCompare : List Byte → List Byte → Int
  | a :: as, b :: bs => if a < b then -1 else if b < a then 1 else traitsCompare as bs
  | _, _ => 0

/-- The call `str.compare(pos, n, s)` for a C string `s`, with `pos ≤ str.size()`:
the substring `str.substr(pos, n)` is compared with `s`, first on their common
length and then by length. -/
def stringCompare (str : List Byte) (pos n : Nat) (s : List Byte) : Int :=
  let sub := (str.drop pos).take n
  let rlen := min sub.length s.length
  let r := traitsCompare (sub.take rlen) (s.take rlen)
  if r ≠ 0 then r
  else if sub.length < s.length then -1
  else if sub.length = s.length then 0
  else 1

/-- The literal `"PIME_MSG|"`. -/
def PIME_MSG : List Byte := ascii "PIME_MSG|"

/-- Colour of a highlighted line, `RGB(255, 255, 0)`. -/
def highlightColor : COLORREF := RGB 255 255 0

/-- Colour of a normal line, `RGB(192, 192, 192)`. -/
def normalColor : COLORREF := RGB 192 192 192

/-- The colour chosen for a line (lines 152-157). -/
def lineColor (line : List Byte) : COLORREF :=
  if stringCompare line 0 9 PIME_MSG = 0 then highlightColor else normalColor

/-- Lines 160-165: `getline` removed the `'\n'`; it is added back, preceded by a
`'\r'` unless the line already ends with one. -/
def addTerminator (line : List Byte) : List Byte :=
  if !line.isEmpty && line.getLast? == some 13 then line ++ [10] else line ++ [13, 10]

/-- A UTF-8 continuation byte, `10xxxxxx`. -/
def isCont (b : Byte) : Bool := 0x80 ≤ b && b < 0xC0

/-- The decoder behind `utf8Codec.from_bytes` (`codecvt_utf8<wchar_t>` with the
16-bit `wchar_t` of Windows): `need` continuation bytes are still expected for the
character whose bits so far are `acc`.  `none` is the `std::range_error` thrown on
a stray continuation byte, a missing continuation byte, a truncated sequence or a
code that does not fit a `wchar_t`. -/
def decodeFrom : List Byte → Nat → Nat → Option (List WChar)
  | [], need, _ => if need = 0 then some [] else none
  | b :: rest, 0, _ =>
    if b < 0x80 then (decodeFrom rest 0 0).map (fun u => b :: u)
    else if b < 0xC0 then none
    else if b < 0xE0 then decodeFrom rest 1 (b % 32)
    else if b < 0xF0 then decodeFrom rest 2 (b % 16)
    else if b < 0xF8 then decodeFrom rest 3 (b % 8)
    else none
  | b :: rest, need + 1, acc =>
    if isCont b then
      if need = 0 then
        if acc * 64 + b % 64 ≤ 0xFFFF then
          (decodeFrom rest 0 0).map (fun u => (acc * 64 + b % 64) :: u)
        else none
      else decodeFrom rest need (acc * 64 + b % 64)
    else none

/-- The call `utf8Codec.from_bytes(line)`; `none` when it throws. -/
def from_bytes (line : List Byte) : Option (List WChar) := decodeFrom line 0 0

/-- The UTF-8 bytes of one 16-bit `wchar_t`. -/
def encodeWChar (c : WChar) : List Byte :=
  if c < 0x80 then [c]
  else if c < 0x800 then [0xC0 + c / 64, 0x80 + c % 64]
  else [0xE0 + c / 4096 % 16, 0x80 + c / 64 % 64, 0x80 + c % 64]

/-- The call `utf8Codec.to_bytes(first, last)` on a range of `wchar_t`. -/
def to_bytes (ws : List WChar) : List Byte := (ws.map encodeWChar).flatten

/-- The characters a `const char*` designates: those before the first NUL. -/
def cstr (mem : List Byte) : List Byte := mem.takeWhile (fun c => c != 0)

/-- The wide characters a `const wchar_t*` designates: those before the first NUL. -/
def wcstr (mem : List WChar) : List WChar := mem.takeWhile (fun c => c != 0)

/-- The body of the `while (getline(lines, line))` loop, lines 152-183: the colour
is selected, the terminator is added back, and the line is written to the
rich-edit control unless its conversion from UTF-8 throws; `EM_REPLACESEL` is
given the pointer `utext.c_str()`.  The new value of `line` is returned with the
messages sent. -/
def renderLine (line : List Byte) (re : List RichMsg) : List Byte × List RichMsg :=
  let re1 := re ++ [RichMsg.setCharFormat (lineColor line)]
  let line1 := addTerminator line
  match from_bytes line1 with
  | some utext =>
    (line1, re1 ++ [RichMsg.setSel, RichMsg.replaceSel (wcstr utext), RichMsg.scrollCaret])
  | none => (line1, re1)

/-- The loop `while (getline(lines, line)) { ... }` run for at most `fuel` calls of
`getline`; `none` when the fuel runs out before `getline` fails. -/
def whileGetline : Nat → StringStream → List Byte → List RichMsg → Option (List RichMsg)
  | 0, _, _, _ => none
  | fuel + 1, is, line, re =>
    match getline is line with
    | (is1, line1) =>
      if is1.failbit then some re
      else
        match renderLine line1 re with
        | (line2, re1) => whileGetline fuel is1 line2 re1

/-- The `DebugConsole` object together with the requests it has issued.  `pipe_`
is `true` when the pointer is not null. -/
structure DebugConsole where
  pipe_ : Bool
  isConnected_ : Bool
  pendingTextOutput_ : List Byte
  connectRequests : List (List Byte)
  readsStarted : Nat
  writesQueued : List (List Byte)
  postedMessages : Nat
  richEdit : List RichMsg
  cerr : List Byte
  deriving DecidableEq, Repr

/-- The constructor `DebugConsole()`, with nothing issued yet. -/
def DebugConsole.new : DebugConsole :=
  { pipe_ := false, isConnected_ := false, pendingTextOutput_ := [],
    connectRequests := [], readsStarted := 0, writesQueued := [],
    postedMessages := 0, richEdit := [], cerr := [] }

/-- The constant `MAX_PATH` of `Windows.h`. -/
def MAX_PATH : Nat := 260

/-- The constant `UNLEN` of `Lmcons.h`. -/
def UNLEN : Nat := 256

/-- The constant `UV_EOF` of `uv.h`. -/
def UV_EOF : Int := -4095

/-- The bytes `sprintf(pipe_name, "\\\\.\\pipe\\%s\\PIME\\%s", user, "Debug")`
stores, the closing NUL included. -/
def sprintfPipeName (user : List Byte) : List Byte :=
  ascii "\\\\.\\pipe\\" ++ cstr user ++ ascii "\\PIME\\" ++ cstr (ascii "Debug") ++ [0]

/-- The function `connectPipe`, lines 54-76.  `userName` is what `GetUserNameW`
finds (`none` when it fails; on success the buffer holds the name and its NUL,
and `unlen` counts both); `stack` is the indeterminate content of the local
array `pipe_name`.  The result is `none` when `sprintf` stores more than
`MAX_PATH` bytes into `pipe_name`, which is undefined behaviour. -/
def connectPipe (userName : Option (List WChar)) (stack : List Byte) (s : DebugConsole) :
    Option DebugConsole :=
  let s1 := { s with pipe_ := true }
  let pipe_name : Option (List Byte) :=
    match userName with
    | some name =>
      let utf8_username := to_bytes (name ++ [0])
      if (sprintfPipeName utf8_username).length ≤ MAX_PATH then
        some (sprintfPipeName utf8_username)
      else none
    | none => some stack
  pipe_name.map (fun buf => { s1 with connectRequests := s1.connectRequests ++ [cstr buf] })

/-- The function `onConnected`, lines 79-101. -/
def onConnected (status : Int) (s : DebugConsole) : DebugConsole :=
  let s1 :=
    if status = 0 then
      { s with
        pendingTextOutput_ := s.pendingTextOutput_ ++ ascii "Debug console connected\r\n",
        isConnected_ := true,
        readsStarted := s.readsStarted + 1 }
    else
      { s with
        pendingTextOutput_ :=
          s.pendingTextOutput_ ++ ascii "Fail to connect to the debug console\r\n",
        pipe_ := false }
  { s1 with postedMessages := s1.postedMessages + 1 }

/-- The function `onDataReceived`, lines 104-122; `base` is the content of
`buf->base`, `none` for a null pointer. -/
def onDataReceived (nread : Int) (base : Option (List Byte)) (s : DebugConsole) :
    DebugConsole :=
  if nread < 0 || nread == UV_EOF then
    { s with cerr := s.cerr ++ ascii "Error\n" }
  else
    match base with
    | some data =>
      { s with
        pendingTextOutput_ := s.pendingTextOutput_ ++ data.take nread.toNat,
        postedMessages := s.postedMessages + 1 }
    | none => s

/-- The function `sendCommand`, lines 226-241: the write request carries
`strlen(command)` bytes of `strdup(command)`. -/
def sendCommand (command : List Byte) (s : DebugConsole) : DebugConsole :=
  if s.pipe_ && s.isConnected_ then
    { s with writesQueued := s.writesQueued ++ [(cstr command).take (cstr command).length] }
  else s

/-- The `WM_DATA_RECEIVED` case of `dialogWndProc`, lines 146-187. -/
def wmDataReceived (s : DebugConsole) : Option DebugConsole :=
  (whileGetline (s.pendingTextOutput_.length + 1)
      { buf := s.pendingTextOutput_, eofbit := false, failbit := false } [] s.richEdit).map
    (fun re => { s with richEdit := re, pendingTextOutput_ := [] })

/-- The literal `"DEBUG_CMD:RESTART_BACKENDS\n"`. -/
def RESTART_BACKENDS : List Byte := ascii "DEBUG_CMD:RESTART_BACKENDS\n"

/-- Window messages reaching `dialogWndProc`; `other` is any message of the
`default` case. -/
inductive WinMsg where
  | WM_INITDIALOG
  | WM_DATA_RECEIVED
  | WM_SIZE
  | WM_COMMAND (id : Nat)
  | WM_CLOSE
  | WM_DESTROY
  | other
  deriving DecidableEq, Repr

/-- The function `dialogWndProc`, lines 124-214, with its `BOOL` result.  The
control identifier `IDC_RESTART_BACKENDS` of `DebugConsoleResource.h` is the
argument `idcRestart`.  Window geometry and the worker thread started by
`WM_INITDIALOG` (which runs `connectPipe`) are outside the state. -/
def dialogWndProc (idcRestart : Nat) (msg : WinMsg) (s : DebugConsole) :
    Option (Bool × DebugConsole) :=
  match msg with
  | WinMsg.WM_INITDIALOG =>
    some (true, { s with richEdit := s.richEdit ++
      [RichMsg.setEventMask, RichMsg.setBkgndColor (RGB 0 0 0),
       RichMsg.setCharFormat (RGB 192 192 192)] })
  | WinMsg.WM_DATA_RECEIVED => (wmDataReceived s).map (fun s1 => (true, s1))
  | WinMsg.WM_SIZE => some (true, s)
  | WinMsg.WM_COMMAND id =>
    if id = idcRestart then some (true, sendCommand RESTART_BACKENDS s) else some (true, s)
  | WinMsg.WM_CLOSE => some (true, s)
  | WinMsg.WM_DESTROY => some (true, s)
  | WinMsg.other => some (false, s)

/-- The arguments of one `onDataReceived` call or one `WM_DATA_RECEIVED` message. -/
inductive Event where
  | read (nread : Int) (base : Option (List Byte))
  | drain
  deriving DecidableEq, Repr

/-- One event applied to the console. -/
def step : Event → DebugConsole → Option DebugConsole
  | Event.read nread base, s => some (onDataReceived nread base s)
  | Event.drain, s => wmDataReceived s

/-- A sequence of events applied in order. -/
def run : List Event → DebugConsole → Option DebugConsole
  | [], s => some s
  | e :: es, s => (step e s).bind (run es)

/-- A read that delivers exactly `chunk`. -/
def deliver (chunk : List Byte) : Event := Event.read chunk.length (some chunk)

/-- The chunks of one batch delivered in order, followed by a drain. -/
def batchEvents (batch : List (List Byte)) : List Event := batch.map deliver ++ [Event.drain]

/-- Batches delivered one after the other, each followed by its drain. -/
def eventsOf (batches : List (List (List Byte))) : List Event :=
  (batches.map batchEvents).flatten

/-- The lines successive `getline` calls yield from a text, `cur` being the
characters of the line under extraction. -/
def splitFrom : List Byte → List Byte → List (List Byte)
  | [], cur => if cur.isEmpty then [] else [cur]
  | c :: rest, cur => if c = 10 then cur :: splitFrom rest [] else splitFrom rest (cur ++ [c])

/-- The lines successive `getline` calls yield from a text. -/
def splitLines (text : List Byte) : List (List Byte) := splitFrom text []

/-- The loop body applied to each line of a list in turn. -/
def renderAll : List (List Byte) → List RichMsg → List RichMsg
  | [], re => re
  | l :: ls, re => renderAll ls (renderLine l re).2

/-- The messages one run of the loop body sends. -/
def lineMsgs (line : List Byte) : List RichMsg := (renderLine line []).2

/-- The colours selected by the `EM_SETCHARFORMAT` messages of a log, one per line
processed. -/
def coloursSet : List RichMsg → List COLORREF
  | [] => []
  | RichMsg.setCharFormat clr :: ms => clr :: coloursSet ms
  | _ :: ms => coloursSet ms

/-- The texts written by the `EM_REPLACESEL` messages of a log, one per line
rendered. -/
def writtenTexts : List RichMsg → List (List WChar)
  | [] => []
  | RichMsg.replaceSel u :: ms => u :: writtenTexts ms
  | _ :: ms => writtenTexts ms

/-- A text that is not empty and does not end with `'\n'`. -/
def unterminated (text : List Byte) : Bool :=
  match text.getLast? with
  | some c => c != 10
  | none => false

/-- A text with a closing `'\n'` added when it is unterminated. -/
def ensureTerminated (text : List Byte) : List Byte :=
  if unterminated text then text ++ [10] else text

/-- Terminator normalisation: every `'\n'` that does not follow a `'\r'` becomes
`"\r\n"`; `prevCR` tells whether the previous byte was a `'\r'`. -/
def normalizeFrom : List Byte → Bool → List Byte
  | [], _ => []
  | c :: rest, prevCR =>
    if c = 10 then (if prevCR then [10] else [13, 10]) ++ normalizeFrom rest false
    else c :: normalizeFrom rest (c == 13)

/-- Terminator normalisation of a whole text. -/
def normalize (text : List Byte) : List Byte := normalizeFrom text false

/-- The bytes `"\r\n"`. -/
def CRLF : List Byte := [13, 10]

/-- The head of the pipe address, `\\.\pipe\`. -/
def pipeHead : List Byte := ascii "\\\\.\\pipe\\"

/-- The tail of the pipe address, `\PIME\Debug`. -/
def pipeTail : List Byte := ascii "\\PIME\\Debug"

/-- A console whose pipe is connected: `connectPipe` has allocated the pipe and
`onConnected(0)` has set the flag; nothing is pending. -/
def connectedConsole : DebugConsole :=
  { DebugConsole.new with pipe_ := true, isConnected_ := true }

/-- A user name of 240 letters `a`, within the `UNLEN` characters `GetUserNameW`
may return. -/
def longUserName : List WChar := List.replicate 240 97

/-- The diagnostic line of a failed connect. -/
def failText : List Byte := ascii "Fail to connect to the debug console\r\n"

/-! ## The `getline` loop -/

theorem splitFrom_no_newline (buf cur : List Byte)
    (h : buf.dropWhile (fun c => c != 10) = []) :
    splitFrom buf cur = if (cur ++ buf).isEmpty then [] else [cur ++ buf] := by
  induction buf generalizing cur with
  | nil => simp [splitFrom]
  | cons c rest ih =>
    by_cases hc : c = 10
    · simp [hc] at h
    · have h' : rest.dropWhile (fun c => c != 10) = [] := by
        simpa [List.dropWhile_cons, hc] using h
      simp [splitFrom, hc, ih _ h']

theorem splitFrom_newline (buf cur rest : List Byte) (d : Byte)
    (h : buf.dropWhile (fun c => c != 10) = d :: rest) :
    splitFrom buf cur = (cur ++ buf.takeWhile (fun c => c != 10)) :: splitFrom rest [] := by
  induction buf generalizing cur with
  | nil => simp at h
  | cons c tl ih =>
    by_cases hc : c = 10
    · subst hc
      simp at h
      simp [splitFrom, h.2]
    · have h' : tl.dropWhile (fun c => c != 10) = d :: rest := by
        simpa [List.dropWhile_cons, hc] using h
      simp [splitFrom, hc, ih _ h', List.takeWhile_cons]

theorem renderLine_snd (line : List Byte) (re : List RichMsg) :
    (renderLine line re).2 = re ++ lineMsgs line := by
  unfold lineMsgs renderLine
  cases h : from_bytes (addTerminator line) <;> simp [h]

theorem renderAll_eq (ls : List (List Byte)) (re : List RichMsg) :
    renderAll ls re = re ++ (ls.map lineMsgs).flatten := by
  induction ls generalizing re with
  | nil => simp [renderAll]
  | cons l ls ih => simp [renderAll, ih, renderLine_snd]

theorem whileGetline_not_good (fuel : Nat) (is : StringStream) (line : List Byte)
    (re : List RichMsg) (h : is.good = false) :
    whileGetline (fuel + 1) is line re = some re := by
  simp [whileGetline, getline, h]

theorem whileGetline_good (fuel : Nat) (buf line : List Byte) (re : List RichMsg)
    (h : buf.length < fuel) :
    whileGetline fuel { buf := buf, eofbit := false, failbit := false } line re
      = some (renderAll (splitLines buf) re) := by
  induction fuel generalizing buf line re with
  | zero => omega
  | succ n ih =>
    cases hd : buf.dropWhile (fun c => c != 10) with
    | nil =>
      have htw : buf.takeWhile (fun c => c != 10) = buf := by
        have := List.takeWhile_append_dropWhile (fun c => c != 10) buf
        rw [hd] at this; simpa using this
      by_cases hb : buf = []
      · subst hb
        simp [whileGetline, getline, StringStream.good, splitLines, splitFrom, renderAll]
      · have hn : 0 < n := by
          cases buf with
          | nil => exact absurd rfl hb
          | cons a t => simp at h; omega
        obtain ⟨m, rfl⟩ : ∃ m, n = m + 1 := ⟨n - 1, by omega⟩
        rw [whileGetline]
        simp only [getline, StringStream.good, hd, htw]
        simp [hb, splitLines, splitFrom_no_newline buf [] hd, renderAll]
        rw [whileGetline_not_good _ _ _ _ (by simp [StringStream.good])]
    | cons d rest =>
      have hlen : rest.length < n := by
        have := List.takeWhile_append_dropWhile (fun c => c != 10) buf
        have hl := congrArg List.length this
        rw [hd] at hl
        simp at hl
        omega
      rw [whileGetline]
      simp only [getline, StringStream.good, hd]
      simp [splitLines, splitFrom_newline buf [] rest d hd, renderAll]
      rw [ih rest _ _ hlen]
      simp [splitLines]

theorem wmDataReceived_eq (s : DebugConsole) :
    wmDataReceived s = some { s with
      richEdit := s.richEdit ++ ((splitLines s.pendingTextOutput_).map lineMsgs).flatten,
      pendingTextOutput_ := [] } := by
  unfold wmDataReceived
  rw [whileGetline_good _ _ _ _ (Nat.lt_succ_self _), renderAll_eq]
  rfl

/-! ## Lines and terminators -/

theorem unterminated_newline (a rest : List Byte) :
    unterminated (a ++ 10 :: rest) = unterminated rest := by
  unfold unterminated
  cases rest with
  | nil => simp
  | cons x xs =>
    have h : a ++ 10 :: x :: xs = (a ++ [10]) ++ (x :: xs) := by simp
    rw [h, List.getLast?_append]
    cases hx : (x :: xs).getLast? with
    | none => simp at hx
    | some y => simp

theorem unterminated_of_not_mem (cur : List Byte) (h : 10 ∉ cur) :
    unterminated cur = !cur.isEmpty := by
  unfold unterminated
  cases hl : cur.getLast? with
  | none => simp at hl; simp [hl]
  | some c =>
    have hm : c ∈ cur := List.mem_of_getLast?_eq_some hl
    have hne : cur ≠ [] := by rintro rfl; simp at hl
    have : c ≠ 10 := by rintro rfl; exact h hm
    cases cur with
    | nil => exact absurd rfl hne
    | cons a t => simp [this]

theorem ensureTerminated_newline (a rest : List Byte) :
    ensureTerminated (a ++ 10 :: rest) = a ++ 10 :: ensureTerminated rest := by
  unfold ensureTerminated
  rw [unterminated_newline]
  split <;> simp

theorem splitFrom_join (buf cur : List Byte) (hcur : 10 ∉ cur) :
    ((splitFrom buf cur).map (fun l => l ++ [10])).flatten = ensureTerminated (cur ++ buf) := by
  induction buf generalizing cur with
  | nil =>
    simp only [splitFrom, List.append_nil, ensureTerminated, unterminated_of_not_mem cur hcur]
    cases cur <;> simp
  | cons c rest ih =>
    by_cases hc : c = 10
    · subst hc
      have := ih [] (by simp)
      simp only [List.nil_append] at this
      simp [splitFrom, this, ensureTerminated_newline]
    · have hcur' : 10 ∉ cur ++ [c] := by
        simp [hcur]; exact fun h => hc h.symm
      simp [splitFrom, hc, ih _ hcur']

theorem splitFrom_not_mem (buf cur : List Byte) (hcur : 10 ∉ cur) :
    ∀ l ∈ splitFrom buf cur, 10 ∉ l := by
  induction buf generalizing cur with
  | nil =>
    intro l hl
    by_cases hc : cur = []
    · simp [splitFrom, hc] at hl
    · simp [splitFrom, hc] at hl
      rw [hl]; exact hcur
  | cons c rest ih =>
    intro l hl
    by_cases hc : c = 10
    · simp [splitFrom, hc] at hl
      rcases hl with rfl | hl
      · exact hcur
      · exact ih [] (by simp) l hl
    · have hcur' : 10 ∉ cur ++ [c] := by
        simp [hcur]; exact fun h => hc h.symm
      simp only [splitFrom, hc, if_false] at hl
      exact ih _ hcur' l hl

theorem splitLines_join (text : List Byte) :
    ((splitLines text).map (fun l => l ++ [10])).flatten = ensureTerminated text := by
  simpa [splitLines] using splitFrom_join text [] (by simp)

theorem splitLines_not_mem (text : List Byte) : ∀ l ∈ splitLines text, 10 ∉ l :=
  splitFrom_not_mem text [] (by simp)

theorem count_join_lines (ls : List (List Byte)) (h : ∀ l ∈ ls, 10 ∉ l) :
    ((ls.map (fun l => l ++ [10])).flatten).count 10 = ls.length := by
  induction ls with
  | nil => simp
  | cons l ls ih =>
    have h1 : l.count 10 = 0 := List.count_eq_zero.mpr (h l (by simp))
    have h2 := ih (fun x hx => h x (by simp [hx]))
    simp [List.count_append, h1, h2]

theorem count_ensureTerminated (text : List Byte) :
    (ensureTerminated text).count 10 = text.count 10 + (if unterminated text then 1 else 0) := by
  unfold ensureTerminated
  split <;> simp [List.count_append]

theorem splitLines_length (text : List Byte) :
    (splitLines text).length = text.count 10 + (if unterminated text then 1 else 0) := by
  rw [← count_ensureTerminated, ← splitLines_join, count_join_lines _ (splitLines_not_mem text)]

/-! ## Terminator normalisation -/

theorem addTerminator_eq (line : List Byte) :
    addTerminator line = line ++ (if line.getLast? = some 13 then [10] else [13, 10]) := by
  unfold addTerminator
  cases line with
  | nil => simp
  | cons a t => by_cases h : (a :: t).getLast? = some 13 <;> simp [h]

theorem normalizeFrom_line (line tail : List Byte) (p : Bool) (h : 10 ∉ line) :
    normalizeFrom (line ++ tail) p
      = line ++ normalizeFrom tail (match line.getLast? with
          | some c => c == 13
          | none => p) := by
  induction line generalizing p with
  | nil => simp
  | cons a t ih =>
    have ha : a ≠ 10 := by rintro rfl; simp at h
    have ht : 10 ∉ t := fun hm => h (by simp [hm])
    simp only [List.cons_append, normalizeFrom, ha, if_false, List.append_eq]
    rw [ih _ ht]
    cases t with
    | nil => simp
    | cons b u =>
      rw [List.getLast?_cons_cons]
      cases hx : (b :: u).getLast? with
      | none => simp at hx
      | some y => simp

theorem normalize_join_lines (ls : List (List Byte)) (h : ∀ l ∈ ls, 10 ∉ l) :
    normalizeFrom ((ls.map (fun l => l ++ [10])).flatten) false
      = (ls.map addTerminator).flatten := by
  induction ls with
  | nil => simp [normalizeFrom]
  | cons l ls ih =>
    have h1 : 10 ∉ l := h l (by simp)
    have h2 := ih (fun x hx => h x (by simp [hx]))
    simp only [List.map_cons, List.flatten_cons, List.append_assoc]
    rw [normalizeFrom_line _ _ _ h1, addTerminator_eq]
    simp only [List.singleton_append, normalizeFrom, if_true, h2]
    cases hl : l.getLast? with
    | none => simp [h2]
    | some c => by_cases hc : c = 13 <;> simp [hc, h2]

theorem emitted_join (text : List Byte) :
    ((splitLines text).map addTerminator).flatten = normalize (ensureTerminated text) := by
  rw [normalize, ← splitLines_join, normalize_join_lines _ (splitLines_not_mem text)]

/-! ## The UTF-8 decoder -/

theorem decodeFrom_zero (b : List Byte) (acc : Nat) : decodeFrom b 0 acc = decodeFrom b 0 0 := by
  cases b <;> simp [decodeFrom]

theorem decodeFrom_append (a b : List Byte) (n acc : Nat) (u : List WChar)
    (h : decodeFrom a n acc = some u) :
    decodeFrom (a ++ b) n acc = (decodeFrom b 0 0).map (fun v => u ++ v) := by
  induction a generalizing n acc u with
  | nil =>
    cases n with
    | zero =>
      simp [decodeFrom] at h
      subst h
      rw [List.nil_append, decodeFrom_zero]
      cases decodeFrom b 0 0 <;> simp
    | succ m => simp [decodeFrom] at h
  | cons x rest ih =>
    have key : ∀ c : WChar,
        (decodeFrom rest 0 0).map (fun v => c :: v) = some u →
        (decodeFrom (rest ++ b) 0 0).map (fun v => c :: v)
          = (decodeFrom b 0 0).map (fun v => u ++ v) := by
      intro c hc
      cases hr : decodeFrom rest 0 0 with
      | none => simp [hr] at hc
      | some w =>
        simp [hr] at hc
        subst hc
        rw [ih 0 0 w hr]
        cases decodeFrom b 0 0 <;> simp
    cases n with
    | zero =>
      simp only [List.cons_append, decodeFrom, List.append_eq] at h ⊢
      split_ifs at h ⊢
      all_goals first
        | exact ih _ _ _ h
        | exact key _ h
    | succ m =>
      simp only [List.cons_append, decodeFrom, List.append_eq] at h ⊢
      split_ifs at h ⊢
      all_goals first
        | exact ih _ _ _ h
        | exact key _ h

theorem from_bytes_flatten (ls : List (List Byte)) (us : List (List WChar))
    (h : ls.map from_bytes = us.map some) :
    from_bytes ls.flatten = some us.flatten := by
  induction ls generalizing us with
  | nil =>
    cases us with
    | nil => simp [from_bytes, decodeFrom]
    | cons u us => simp at h
  | cons l ls ih =>
    cases us with
    | nil => simp at h
    | cons u us =>
      simp at h
      have := ih us h.2
      simp only [from_bytes] at this h ⊢
      simp [decodeFrom_append _ _ _ _ _ h.1, this]

/-! ## Message logs -/

theorem coloursSet_append (a b : List RichMsg) :
    coloursSet (a ++ b) = coloursSet a ++ coloursSet b := by
  induction a with
  | nil => simp [coloursSet]
  | cons m ms ih => cases m <;> simp [coloursSet, ih]

theorem writtenTexts_append (a b : List RichMsg) :
    writtenTexts (a ++ b) = writtenTexts a ++ writtenTexts b := by
  induction a with
  | nil => simp [writtenTexts]
  | cons m ms ih => cases m <;> simp [writtenTexts, ih]

theorem coloursSet_lineMsgs (l : List Byte) : coloursSet (lineMsgs l) = [lineColor l] := by
  unfold lineMsgs renderLine
  cases h : from_bytes (addTerminator l) <;> simp [h, coloursSet]

theorem writtenTexts_lineMsgs (l : List Byte) :
    writtenTexts (lineMsgs l) = ((from_bytes (addTerminator l)).map wcstr).toList := by
  unfold lineMsgs renderLine
  cases h : from_bytes (addTerminator l) <;> simp [h, writtenTexts]

theorem coloursSet_lines (ls : List (List Byte)) :
    coloursSet ((ls.map lineMsgs).flatten) = ls.map lineColor := by
  induction ls with
  | nil => simp [coloursSet]
  | cons l ls ih => simp [coloursSet_append, coloursSet_lineMsgs, ih]

theorem writtenTexts_lines (ls : List (List Byte)) :
    writtenTexts ((ls.map lineMsgs).flatten)
      = ls.filterMap (fun l => (from_bytes (addTerminator l)).map wcstr) := by
  induction ls with
  | nil => simp [writtenTexts]
  | cons l ls ih =>
    simp only [List.map_cons, List.flatten_cons, writtenTexts_append, writtenTexts_lineMsgs, ih,
      List.filterMap_cons]
    cases from_bytes (addTerminator l) <;> simp

theorem wcstr_of_not_mem (u : List WChar) (h : 0 ∉ u) : wcstr u = u := by
  unfold wcstr
  rw [List.takeWhile_eq_self_iff]
  intro x hx
  have : x ≠ 0 := by rintro rfl; exact h hx
  simpa using this

theorem filterMap_all_some (ls : List (List Byte))
    (h : ∀ l ∈ ls, ∃ u, from_bytes (addTerminator l) = some u ∧ 0 ∉ u) :
    (ls.filterMap (fun l => (from_bytes (addTerminator l)).map wcstr)).map some
      = ls.map (fun l => from_bytes (addTerminator l)) := by
  induction ls with
  | nil => simp
  | cons l ls ih =>
    obtain ⟨u, hu, h0⟩ := h l (by simp)
    have h2 := ih (fun x hx => h x (by simp [hx]))
    simp [List.filterMap_cons, hu, h2, wcstr_of_not_mem u h0]

theorem filterMap_length (ls : List (List Byte))
    (h : ∀ l ∈ ls, (from_bytes (addTerminator l)).isSome = true) :
    (ls.filterMap (fun l => (from_bytes (addTerminator l)).map wcstr)).length = ls.length := by
  induction ls with
  | nil => simp
  | cons l ls ih =>
    have h1 := h l (by simp)
    have h2 := ih (fun x hx => h x (by simp [hx]))
    cases hl : from_bytes (addTerminator l) with
    | none => simp [hl] at h1
    | some u => simp [List.filterMap_cons, hl, h2]

/-! ## The highlight marker -/

theorem traitsCompare_eq_zero (a b : List Byte) (h : a.length = b.length) :
    traitsCompare a b = 0 ↔ a = b := by
  induction a generalizing b with
  | nil =>
    cases b with
    | nil => simp [traitsCompare]
    | cons y ys => simp at h
  | cons x xs ih =>
    cases b with
    | nil => simp at h
    | cons y ys =>
      have hl : xs.length = ys.length := by simpa using h
      simp only [traitsCompare]
      by_cases h1 : x < y
      · have : x ≠ y := Nat.ne_of_lt h1
        simp [h1, this]
      · by_cases h2 : y < x
        · have : x ≠ y := Nat.ne_of_gt h2
          simp [h1, h2, this]
        · have : x = y := Nat.le_antisymm (Nat.not_lt.mp h2) (Nat.not_lt.mp h1)
          simp [h1, h2, this, ih ys hl]

theorem compare_result (r : Int) (a b : Nat) :
    (if r ≠ 0 then r else if a < b then -1 else if a = b then 0 else 1) = 0 ↔ r = 0 ∧ a = b := by
  by_cases hr : r = 0
  · subst hr
    by_cases h1 : a < b
    · have : a ≠ b := Nat.ne_of_lt h1
      simp [h1, this]
    · by_cases h2 : a = b
      · simp [h2]
      · simp [h1, h2]
  · simp [hr]

theorem compare_core (sub s : List Byte) :
    (if traitsCompare (sub.take (min sub.length s.length)) (s.take (min sub.length s.length)) ≠ 0
      then traitsCompare (sub.take (min sub.length s.length)) (s.take (min sub.length s.length))
      else if sub.length < s.length then -1
      else if sub.length = s.length then 0
      else 1) = 0 ↔ sub = s := by
  rw [compare_result]
  constructor
  · rintro ⟨hr, hl⟩
    rw [hl, Nat.min_self, ← hl, List.take_length, hl, List.take_length] at hr
    exact (traitsCompare_eq_zero sub s hl).mp hr
  · rintro rfl
    rw [Nat.min_self, List.take_length]
    exact ⟨(traitsCompare_eq_zero sub sub rfl).mpr rfl, rfl⟩

theorem stringCompare_eq_zero (str s : List Byte) (n : Nat) :
    stringCompare str 0 n s = 0 ↔ str.take n = s := by
  unfold stringCompare
  simp only [List.drop_zero]
  exact compare_core _ _

theorem lineColor_eq (line : List Byte) :
    lineColor line = if line.take 9 = PIME_MSG then highlightColor else normalColor := by
  unfold lineColor
  by_cases h : line.take 9 = PIME_MSG
  · rw [if_pos h, if_pos ((stringCompare_eq_zero _ _ _).mpr h)]
  · rw [if_neg h, if_neg (fun hc => h ((stringCompare_eq_zero _ _ _).mp hc))]

/-! ## Events -/

theorem onDataReceived_deliver (chunk : List Byte) (s : DebugConsole) :
    onDataReceived chunk.length (some chunk) s = { s with
      pendingTextOutput_ := s.pendingTextOutput_ ++ chunk,
      postedMessages := s.postedMessages + 1 } := by
  have h1 : ¬ ((chunk.length : Int) < 0) := by omega
  have h2 : ¬ ((chunk.length : Int) = UV_EOF) := by unfold UV_EOF; omega
  simp [onDataReceived, h1, h2]

theorem onDataReceived_read (n : Nat) (data : List Byte) (s : DebugConsole) :
    onDataReceived n (some data) s = { s with
      pendingTextOutput_ := s.pendingTextOutput_ ++ data.take n,
      postedMessages := s.postedMessages + 1 } := by
  have h1 : ¬ ((n : Int) < 0) := by omega
  have h2 : ¬ ((n : Int) = UV_EOF) := by unfold UV_EOF; omega
  simp [onDataReceived, h1, h2]

theorem run_append (a b : List Event) (s : DebugConsole) :
    run (a ++ b) s = (run a s).bind (run b) := by
  induction a generalizing s with
  | nil => simp [run]
  | cons e es ih =>
    simp only [List.cons_append, run]
    cases step e s with
    | none => simp
    | some s1 => simp [ih]

theorem run_reads (reads : List (Nat × List Byte)) (s : DebugConsole) :
    run (reads.map (fun r => Event.read r.1 (some r.2))) s = some { s with
      pendingTextOutput_ := s.pendingTextOutput_ ++ (reads.map (fun r => r.2.take r.1)).flatten,
      postedMessages := s.postedMessages + reads.length } := by
  induction reads generalizing s with
  | nil => simp [run]
  | cons r rs ih =>
    simp only [List.map_cons, run, step, onDataReceived_read, Option.some_bind, ih]
    simp [Nat.add_assoc, Nat.add_comm 1]

theorem run_delivers (chunks : List (List Byte)) (s : DebugConsole) :
    run (chunks.map deliver) s = some { s with
      pendingTextOutput_ := s.pendingTextOutput_ ++ chunks.flatten,
      postedMessages := s.postedMessages + chunks.length } := by
  induction chunks generalizing s with
  | nil => simp [run]
  | cons c cs ih =>
    simp only [List.map_cons, run, step, deliver, onDataReceived_deliver, Option.some_bind]
    have := ih { s with pendingTextOutput_ := s.pendingTextOutput_ ++ c,
                        postedMessages := s.postedMessages + 1 }
    simp only [deliver] at this
    rw [this]
    simp [Nat.add_assoc, Nat.add_comm 1]

theorem run_batch (batch : List (List Byte)) (s : DebugConsole) :
    run (batchEvents batch) s = some { s with
      richEdit := s.richEdit ++
        ((splitLines (s.pendingTextOutput_ ++ batch.flatten)).map lineMsgs).flatten,
      pendingTextOutput_ := [],
      postedMessages := s.postedMessages + batch.length } := by
  unfold batchEvents
  rw [run_append, run_delivers]
  simp [run, step, wmDataReceived_eq]

/-! ## Classification of a line -/

/-- C1: the colour the `WM_DATA_RECEIVED` handler selects for a line is the
highlight colour exactly when the first 9 bytes of the line are `PIME_MSG|`, and
the normal colour otherwise; a line shorter than 9 bytes is normal, the match is
case-sensitive, and a drain selects, for each line of the pending text in order,
the colour of that line. -/
theorem lineColor_highlight_iff :
    (∀ line : List Byte,
      (lineColor line = highlightColor ↔ line.take 9 = PIME_MSG) ∧
      (lineColor line = normalColor ↔ line.take 9 ≠ PIME_MSG) ∧
      (line.length < 9 → lineColor line = normalColor)) ∧
    lineColor (ascii "PIME_MSG|hello") = highlightColor ∧
    lineColor (ascii "pime_msg|hello") = normalColor ∧
    lineColor (ascii "PIME_MS|x") = normalColor ∧
    (∀ s : DebugConsole, ∃ s1, wmDataReceived s = some s1 ∧
      coloursSet s1.richEdit
        = coloursSet s.richEdit ++ (splitLines s.pendingTextOutput_).map lineColor) := by
  have hne : highlightColor ≠ normalColor := by decide
  refine ⟨fun line => ?_, by decide, by decide, by decide, fun s => ?_⟩
  · rw [lineColor_eq]
    refine ⟨?_, ?_, ?_⟩
    · by_cases h : line.take 9 = PIME_MSG
      · simp [h]
      · simp [h, hne.symm]
    · by_cases h : line.take 9 = PIME_MSG
      · simp [h, hne]
      · simp [h]
    · intro hlen
      have h : line.take 9 ≠ PIME_MSG := by
        intro hc
        have := congrArg List.length hc
        rw [List.length_take] at this
        have h9 : PIME_MSG.length = 9 := by decide
        omega
      simp [h]
  · exact ⟨_, wmDataReceived_eq s, by simp [coloursSet_append, coloursSet_lines]⟩

/-- A line of 7 bytes is given the normal colour. -/
theorem lineColor_highlight_iff_witness : lineColor (ascii "PIME_MS") = normalColor :=
  (lineColor_highlight_iff.1 (ascii "PIME_MS")).2.2 (by decide)

/-! ## Emitted lines -/

theorem lineColor_cr (body : List Byte) : lineColor (body ++ [13]) = lineColor body := by
  rw [lineColor_eq, lineColor_eq]
  by_cases hlen : 9 ≤ body.length
  · rw [List.take_append_of_le_length hlen]
  · have h1 : body.take 9 ≠ PIME_MSG := by
      intro hc
      have := congrArg List.length hc
      rw [List.length_take] at this
      have h9 : PIME_MSG.length = 9 := by decide
      omega
    have h2 : (body ++ [13]).take 9 ≠ PIME_MSG := by
      intro hc
      have hl : (body ++ [13]).length ≤ 9 := by simp; omega
      rw [List.take_of_length_le hl] at hc
      have := congrArg List.getLast? hc
      rw [List.getLast?_append] at this
      have h9 : PIME_MSG.getLast? = some 124 := by decide
      rw [h9] at this
      simp at this
    rw [if_neg h1, if_neg h2]

theorem lineMsgs_cr (body : List Byte) (h : body.getLast? ≠ some 13) :
    lineMsgs (body ++ [13]) = lineMsgs body := by
  have h1 : addTerminator (body ++ [13]) = addTerminator body := by
    rw [addTerminator_eq, addTerminator_eq, if_neg h]
    simp
  unfold lineMsgs renderLine
  rw [h1, lineColor_cr]

theorem splitFrom_crlf (pre rest cur : List Byte) (h : (cur ++ pre).getLast? ≠ some 13) :
    (splitFrom (pre ++ 13 :: 10 :: rest) cur).map lineMsgs
      = (splitFrom (pre ++ 10 :: rest) cur).map lineMsgs := by
  induction pre generalizing cur with
  | nil =>
    simp only [List.append_nil] at h
    simp [splitFrom, lineMsgs_cr cur h]
  | cons c tl ih =>
    by_cases hc : c = 10
    · subst hc
      have h' : ([] ++ tl).getLast? ≠ some 13 := by
        cases tl with
        | nil => simp
        | cons x xs =>
          have e : cur ++ 10 :: x :: xs = (cur ++ [10]) ++ (x :: xs) := by simp
          rw [e, List.getLast?_append] at h
          cases hx : (x :: xs).getLast? with
          | none => simp at hx
          | some y => simpa [hx] using h
      simp [splitFrom, ih [] h']
    · have h' : ((cur ++ [c]) ++ tl).getLast? ≠ some 13 := by simpa using h
      simp [splitFrom, hc, ih _ h']

theorem decodeFrom_snoc (a : List Nat) (b : Nat) (hb : b < 0x80) (n acc : Nat)
    (u : List Nat) (h : decodeFrom (a ++ [b]) n acc = some u) :
    ∃ v, decodeFrom a n acc = some v ∧ u = v ++ [b] := by
  have key : ∀ (rest : List Nat) (c : Nat) (t : List Nat),
      (∀ w, decodeFrom (rest ++ [b]) 0 0 = some w →
        ∃ v, decodeFrom rest 0 0 = some v ∧ w = v ++ [b]) →
      (decodeFrom (rest ++ [b]) 0 0).map (fun x => c :: x) = some t →
      ∃ v, (decodeFrom rest 0 0).map (fun x => c :: x) = some v ∧ t = v ++ [b] := by
    intro rest c t ih hc
    cases hr : decodeFrom (rest ++ [b]) 0 0 with
    | none => simp [hr] at hc
    | some w =>
      obtain ⟨v, hv, hw⟩ := ih w hr
      simp [hr] at hc
      exact ⟨c :: v, by simp [hv], by rw [← hc, hw]; rfl⟩
  induction a generalizing n acc u with
  | nil =>
    cases n with
    | zero =>
      simp only [List.nil_append, decodeFrom, hb, if_true] at h
      simp only [Option.map_some', Option.some.injEq] at h
      exact ⟨[], by simp [decodeFrom], by rw [← h]; rfl⟩
    | succ m =>
      have hlt : ¬ (0x80 ≤ b) := by omega
      have hc : isCont b = false := by simp [isCont, hlt]
      simp [decodeFrom, hc] at h
  | cons x rest ih =>
    cases n with
    | zero =>
      simp only [List.cons_append, decodeFrom, List.append_eq] at h ⊢
      split_ifs at h ⊢
      all_goals first
        | exact ih _ _ _ h
        | exact key rest _ _ (fun w hw => ih 0 0 w hw) h
    | succ m =>
      simp only [List.cons_append, decodeFrom, List.append_eq] at h ⊢
      split_ifs at h ⊢
      all_goals first
        | exact ih _ _ _ h
        | exact key rest _ _ (fun w hw => ih 0 0 w hw) h

theorem from_bytes_crlf (body : List Byte) (u : List WChar)
    (h : from_bytes (body ++ CRLF) = some u) :
    ∃ v, from_bytes body = some v ∧ u = v ++ CRLF := by
  have e : body ++ CRLF = (body ++ [13]) ++ [10] := by simp [CRLF]
  rw [e] at h
  obtain ⟨w, hw, huw⟩ := decodeFrom_snoc (body ++ [13]) 10 (by decide) 0 0 u h
  obtain ⟨v, hv, hwv⟩ := decodeFrom_snoc body 13 (by decide) 0 0 w hw
  exact ⟨v, hv, by rw [huw, hwv]; simp [CRLF]⟩

/-- C3, as the code has it: every line a drain builds for the control is the line
`getline` extracted, without the `'\r'` that may close it, followed by `"\r\n"`:
it ends with `"\r\n"` and the byte `'\n'` occurs in it only as its last byte.  The
texts the control receives are, in order, the conversions of these lines, each
cut at its first NUL, a line that does not convert being left out; a line that
converts to a text without NUL is received whole, as the conversion of its
stripped bytes followed by `"\r\n"`.  A line that does not itself end with `'\r'`
is rendered the same whether `"\n"` or `"\r\n"` terminates it. -/
theorem emitted_line_canonical (s : DebugConsole) :
    (∃ s1, wmDataReceived s = some s1 ∧
      writtenTexts s1.richEdit = writtenTexts s.richEdit ++
        (splitLines s.pendingTextOutput_).filterMap
          (fun l => (from_bytes (addTerminator l)).map wcstr)) ∧
    (∀ l ∈ splitLines s.pendingTextOutput_,
      10 ∉ l ∧
      addTerminator l = (if l.getLast? = some 13 then l.dropLast else l) ++ CRLF ∧
      CRLF <:+ addTerminator l ∧
      10 ∉ (addTerminator l).dropLast ∧
      ∀ u : List WChar, from_bytes (addTerminator l) = some u → 0 ∉ u →
        (from_bytes (addTerminator l)).map wcstr = some u ∧
        CRLF <:+ u ∧
        ∃ v, from_bytes (if l.getLast? = some 13 then l.dropLast else l) = some v ∧
          u = v ++ CRLF) ∧
    (∀ pre rest : List Byte, pre.getLast? ≠ some 13 →
      wmDataReceived { s with pendingTextOutput_ := pre ++ 13 :: 10 :: rest }
        = wmDataReceived { s with pendingTextOutput_ := pre ++ 10 :: rest }) := by
  refine ⟨⟨_, wmDataReceived_eq s, ?_⟩, ?_, ?_⟩
  · simp [writtenTexts_append, writtenTexts_lines]
  · intro l hl
    have h10 : 10 ∉ l := splitLines_not_mem _ l hl
    have hform : addTerminator l
        = (if l.getLast? = some 13 then l.dropLast else l) ++ CRLF := by
      rw [addTerminator_eq]
      by_cases hcr : l.getLast? = some 13
      · rw [if_pos hcr, if_pos hcr]
        have := List.dropLast_append_getLast? 13 hcr
        conv_lhs => rw [← this]
        simp [CRLF]
      · rw [if_neg hcr, if_neg hcr]; rfl
    refine ⟨h10, hform, ?_, ?_, ?_⟩
    · rw [hform]; exact List.suffix_append _ _
    · rw [hform]
      have hbody : 10 ∉ (if l.getLast? = some 13 then l.dropLast else l) := by
        split
        · exact fun hm => h10 (List.mem_of_mem_dropLast hm)
        · exact h10
      have e : ((if l.getLast? = some 13 then l.dropLast else l) ++ CRLF).dropLast
          = (if l.getLast? = some 13 then l.dropLast else l) ++ [13] := by
        have : (if l.getLast? = some 13 then l.dropLast else l) ++ CRLF
            = ((if l.getLast? = some 13 then l.dropLast else l) ++ [13]) ++ [10] := by
          simp [CRLF]
        rw [this, List.dropLast_concat]
      rw [e]
      simp [hbody]
    · intro u hu h0
      have hu' := hu
      rw [hform] at hu'
      obtain ⟨v, hv, huv⟩ := from_bytes_crlf _ u hu'
      refine ⟨by rw [hu]; simp [wcstr_of_not_mem u h0], ?_, v, hv, huv⟩
      rw [huv]; exact List.suffix_append _ _
  · intro pre rest hpre
    rw [wmDataReceived_eq, wmDataReceived_eq]
    simp only [splitLines]
    rw [splitFrom_crlf pre rest [] (by simpa using hpre)]

/-- The pending texts `"ab\r\nc"` and `"ab\nc"` are drained to the same console,
and the line `"ab"` of the pending text `"ab\n"` reaches the control whole, as
`"ab\r\n"`. -/
theorem emitted_line_canonical_witness :
    wmDataReceived { DebugConsole.new with pendingTextOutput_ := ascii "ab" ++ 13 :: 10 :: ascii "c" }
      = wmDataReceived { DebugConsole.new with pendingTextOutput_ := ascii "ab" ++ 10 :: ascii "c" } ∧
    ((from_bytes (addTerminator (ascii "ab"))).map wcstr = some (ascii "ab\r\n") ∧
      CRLF <:+ ascii "ab\r\n" ∧
      ∃ v, from_bytes (if (ascii "ab").getLast? = some 13 then (ascii "ab").dropLast
          else ascii "ab") = some v ∧ ascii "ab\r\n" = v ++ CRLF) :=
  ⟨(emitted_line_canonical DebugConsole.new).2.2 (ascii "ab") (ascii "c") (by decide),
    ((emitted_line_canonical
        { DebugConsole.new with pendingTextOutput_ := ascii "ab\n" }).2.1
      (ascii "ab") (by decide)).2.2.2.2 (ascii "ab\r\n") (by decide) (by decide)⟩

/-- C3 fails as stated: of the line `"a\0b"` of the pending text `"a\0b\n"` the
control receives `"a"`, which does not end with `"\r\n"`; and the line `"abc\r"`
is emitted as `"abc\r\n"` when `"\n"` terminates it and as `"abc\r\r\n"` when
`"\r\n"` does. -/
theorem nul_cuts_emitted_line :
    splitLines [97, 0, 98, 10] = [[97, 0, 98]] ∧
    (wmDataReceived { DebugConsole.new with pendingTextOutput_ := [97, 0, 98, 10] }).map
      (fun s1 => writtenTexts s1.richEdit) = some [[97]] ∧
    ([97] : List WChar).getLast? ≠ some 10 ∧
    (wmDataReceived { DebugConsole.new with
        pendingTextOutput_ := ascii "abc\r" ++ ascii "\n" }).map
      (fun s1 => writtenTexts s1.richEdit) = some [ascii "abc\r\n"] ∧
    (wmDataReceived { DebugConsole.new with
        pendingTextOutput_ := ascii "abc\r" ++ ascii "\r\n" }).map
      (fun s1 => writtenTexts s1.richEdit) = some [ascii "abc\r\r\n"] := by
  decide

/-! ## What a drain writes -/

/-- C4, as the code has it: when every line of the pending text converts from
UTF-8 to a text without NUL, a drain writes every line, none dropped; the lines
written, concatenated, are the pending text (closed by a terminator when its last
line had none) with its terminators normalised, and the text written to the
console is the conversion of exactly that; the pending text is left empty. -/
theorem drain_writes_every_line (s : DebugConsole)
    (h : ∀ l ∈ splitLines s.pendingTextOutput_,
      ∃ u, from_bytes (addTerminator l) = some u ∧ 0 ∉ u) :
    ∃ s1 written, wmDataReceived s = some s1 ∧
      s1.pendingTextOutput_ = [] ∧
      writtenTexts s1.richEdit = writtenTexts s.richEdit ++ written ∧
      written.length = (splitLines s.pendingTextOutput_).length ∧
      written.map some
        = (splitLines s.pendingTextOutput_).map (fun l => from_bytes (addTerminator l)) ∧
      ((splitLines s.pendingTextOutput_).map addTerminator).flatten
        = normalize (ensureTerminated s.pendingTextOutput_) ∧
      from_bytes (normalize (ensureTerminated s.pendingTextOutput_)) = some written.flatten := by
  have hmap := filterMap_all_some _ h
  refine ⟨_, (splitLines s.pendingTextOutput_).filterMap
      (fun l => (from_bytes (addTerminator l)).map wcstr),
    wmDataReceived_eq s, rfl, ?_, ?_, hmap, emitted_join _, ?_⟩
  · simp [writtenTexts_append, writtenTexts_lines]
  · have := congrArg List.length hmap
    simpa using this
  · rw [← emitted_join]
    apply from_bytes_flatten
    rw [hmap, List.map_map]
    rfl

/-- The pending text `"hello\nPIME_MSG|world\n"` is written whole, in two lines. -/
theorem drain_writes_every_line_witness :
    ∃ s1 written,
      wmDataReceived { DebugConsole.new with
        pendingTextOutput_ := ascii "hello\nPIME_MSG|world\n" } = some s1 ∧
      s1.pendingTextOutput_ = [] ∧
      writtenTexts s1.richEdit = writtenTexts DebugConsole.new.richEdit ++ written ∧
      written.length = (splitLines (ascii "hello\nPIME_MSG|world\n")).length ∧
      written.map some = (splitLines (ascii "hello\nPIME_MSG|world\n")).map
        (fun l => from_bytes (addTerminator l)) ∧
      ((splitLines (ascii "hello\nPIME_MSG|world\n")).map addTerminator).flatten
        = normalize (ensureTerminated (ascii "hello\nPIME_MSG|world\n")) ∧
      from_bytes (normalize (ensureTerminated (ascii "hello\nPIME_MSG|world\n")))
        = some written.flatten :=
  drain_writes_every_line
    { DebugConsole.new with pendingTextOutput_ := ascii "hello\nPIME_MSG|world\n" }
    (by
      intro l hl
      have hls : splitLines (ascii "hello\nPIME_MSG|world\n")
          = [ascii "hello", ascii "PIME_MSG|world"] := by decide
      have hl2 : l ∈ [ascii "hello", ascii "PIME_MSG|world"] := hls ▸ hl
      simp only [List.mem_cons, List.mem_singleton, List.not_mem_nil, or_false] at hl2
      rcases hl2 with rfl | rfl
      · exact ⟨ascii "hello\r\n", by decide, by decide⟩
      · exact ⟨ascii "PIME_MSG|world\r\n", by decide, by decide⟩)

/-- C4 fails as stated: the line `[0x80]` of the pending text `[0x80, '\n']` is
not valid UTF-8 and the drain writes nothing for it; of the line `"a\0b"` only
`"a"` reaches the control, which reads the text up to its first NUL; and the
unterminated pending text `"ab"` is written as `"ab\r\n"`, which is not its
normalisation. -/
theorem drain_drops_invalid_utf8 :
    splitLines [0x80, 10] = [[0x80]] ∧
    (wmDataReceived { DebugConsole.new with pendingTextOutput_ := [0x80, 10] }).map
      (fun s1 => (writtenTexts s1.richEdit, s1.pendingTextOutput_)) = some ([], []) ∧
    (wmDataReceived { DebugConsole.new with pendingTextOutput_ := [97, 0, 98, 10] }).map
      (fun s1 => (writtenTexts s1.richEdit, s1.pendingTextOutput_)) = some ([[97]], []) ∧
    (wmDataReceived { DebugConsole.new with pendingTextOutput_ := ascii "ab" }).map
      (fun s1 => writtenTexts s1.richEdit) = some [ascii "ab\r\n"] ∧
    normalize (ascii "ab") = ascii "ab" := by
  decide

/-! ## Batches -/

/-- C5: after a drain the pending text is empty; whatever reads (each with
`nread ≥ 0` and a buffer) follow it, the next drain acts exactly as a drain of the
concatenation, in order, of the chunks read, and leaves the pending text empty
again; a drain with nothing read since the previous one changes nothing, so it
emits no line and nothing is delivered twice. -/
theorem drain_takes_whole_batch (s0 : DebugConsole) :
    ∃ s, wmDataReceived s0 = some s ∧ s.pendingTextOutput_ = [] ∧
      wmDataReceived s = some s ∧
      ∀ reads : List (Nat × List Byte),
        run (reads.map (fun r => Event.read r.1 (some r.2)) ++ [Event.drain]) s
          = wmDataReceived { s with
              pendingTextOutput_ := (reads.map (fun r => r.2.take r.1)).flatten,
              postedMessages := s.postedMessages + reads.length } ∧
        ∃ s1, run (reads.map (fun r => Event.read r.1 (some r.2)) ++ [Event.drain]) s = some s1 ∧
          s1.pendingTextOutput_ = [] ∧
          s1.richEdit = s.richEdit ++
            ((splitLines (reads.map (fun r => r.2.take r.1)).flatten).map lineMsgs).flatten := by
  obtain ⟨s, hs0, hp⟩ : ∃ s, wmDataReceived s0 = some s ∧ s.pendingTextOutput_ = [] :=
    ⟨_, wmDataReceived_eq s0, rfl⟩
  refine ⟨s, hs0, hp, ?_, fun reads => ?_⟩
  · rw [wmDataReceived_eq, hp]
    cases s
    simp only [DebugConsole.mk.injEq] at hp ⊢
    simp_all [splitLines, splitFrom]
  · have hrun : run (reads.map (fun r => Event.read r.1 (some r.2)) ++ [Event.drain]) s
        = wmDataReceived { s with
            pendingTextOutput_ := (reads.map (fun r => r.2.take r.1)).flatten,
            postedMessages := s.postedMessages + reads.length } := by
      rw [run_append, run_reads, hp]
      simp [run, step]
    refine ⟨hrun, ?_⟩
    rw [hrun, wmDataReceived_eq]
    exact ⟨_, rfl, rfl, rfl⟩

/-! ## Lines across drains -/

theorem run_eventsOf_cons (batch : List (List Byte)) (batches : List (List (List Byte)))
    (s : DebugConsole) :
    run (eventsOf (batch :: batches)) s = (run (batchEvents batch) s).bind (run (eventsOf batches)) := by
  simp [eventsOf, run_append]

/-- C2, as the code has it: for a console with nothing pending, chunks delivered
in batches, each batch followed by a drain, are processed to the end, nothing is
left pending, and the number of lines the drains process is the number of `'\n'`
in the stream plus the number of drains that found a text not ending with `'\n'`
(such a drain emits the open fragment as a line and retains nothing); when every
line processed converts from UTF-8, that is also the number of lines written. -/
theorem drains_line_count (batches : List (List (List Byte))) (s : DebugConsole)
    (hs : s.pendingTextOutput_ = []) :
    ∃ s1, run (eventsOf batches) s = some s1 ∧
      s1.pendingTextOutput_ = [] ∧
      (coloursSet s1.richEdit).length
        = (coloursSet s.richEdit).length + batches.flatten.flatten.count 10
          + (batches.map List.flatten).countP unterminated ∧
      ((∀ batch ∈ batches, ∀ l ∈ splitLines batch.flatten,
          (from_bytes (addTerminator l)).isSome = true) →
        (writtenTexts s1.richEdit).length
          = (writtenTexts s.richEdit).length + batches.flatten.flatten.count 10
            + (batches.map List.flatten).countP unterminated) := by
  induction batches generalizing s with
  | nil => exact ⟨s, by simp [eventsOf, run], hs, by simp, fun _ => by simp⟩
  | cons batch batches ih =>
    rw [run_eventsOf_cons, run_batch, hs]
    simp only [Option.some_bind, List.nil_append]
    obtain ⟨s1, hrun, hp, hc, hw⟩ := ih { s with
      richEdit := s.richEdit ++ ((splitLines batch.flatten).map lineMsgs).flatten,
      pendingTextOutput_ := [],
      postedMessages := s.postedMessages + batch.length } rfl
    dsimp only at hc hw
    refine ⟨s1, hrun, hp, ?_, ?_⟩
    · rw [hc]
      simp only [coloursSet_append, List.flatten_append, coloursSet_lines, List.length_append, List.length_map,
        splitLines_length, List.flatten_cons, List.count_append, List.map_cons, List.countP_cons]
      omega
    · intro hdec
      rw [hw (fun b hb l hl => hdec b (by simp [hb]) l hl)]
      have hb := hdec batch (by simp)
      have hlen := filterMap_length _ hb
      simp only [writtenTexts_append, writtenTexts_lines, List.length_append, hlen,
        List.flatten_append,
        splitLines_length, List.flatten_cons, List.count_append, List.map_cons, List.countP_cons]
      omega

/-- The stream `"ab\ncd\n"` cut into `"ab\nc"` and `"d\n"` and drained once, at the
end, is written in 2 lines. -/
theorem drains_line_count_witness :
    ∃ s1, run (eventsOf [[ascii "ab\nc", ascii "d\n"]]) DebugConsole.new = some s1 ∧
      s1.pendingTextOutput_ = [] ∧
      (coloursSet s1.richEdit).length
        = (coloursSet DebugConsole.new.richEdit).length
          + [[ascii "ab\nc", ascii "d\n"]].flatten.flatten.count 10
          + ([[ascii "ab\nc", ascii "d\n"]].map List.flatten).countP unterminated ∧
      ((∀ batch ∈ [[ascii "ab\nc", ascii "d\n"]], ∀ l ∈ splitLines batch.flatten,
          (from_bytes (addTerminator l)).isSome = true) →
        (writtenTexts s1.richEdit).length
          = (writtenTexts DebugConsole.new.richEdit).length
            + [[ascii "ab\nc", ascii "d\n"]].flatten.flatten.count 10
            + ([[ascii "ab\nc", ascii "d\n"]].map List.flatten).countP unterminated) :=
  drains_line_count [[ascii "ab\nc", ascii "d\n"]] DebugConsole.new (by decide)

/-- C2 fails as stated: the stream `"abc\n"` holds one terminator, yet delivered as
`"ab"`, drain, `"c\n"`, drain it is written in two lines, `"ab\r\n"` and `"c\r\n"`;
the chunk `"ab"`, which holds no terminator, is rendered as a line by the first
drain and nothing of it is kept. -/
theorem split_line_rendered_twice :
    ([[ascii "ab"], [ascii "c\n"]] : List (List (List Byte))).flatten.flatten = ascii "abc\n" ∧
    (ascii "abc\n").count 10 = 1 ∧
    (run (eventsOf [[ascii "ab"], [ascii "c\n"]]) DebugConsole.new).map
      (fun s1 => writtenTexts s1.richEdit) = some [ascii "ab\r\n", ascii "c\r\n"] ∧
    (run (eventsOf [[ascii "ab"]]) DebugConsole.new).map
      (fun s1 => (writtenTexts s1.richEdit, s1.pendingTextOutput_))
        = some ([ascii "ab\r\n"], []) := by
  decide

/-! ## Connection callbacks -/

theorem cstr_of_not_mem (c : List Byte) (h : 0 ∉ c) : cstr c = c := by
  unfold cstr
  rw [List.takeWhile_eq_self_iff]
  intro x hx
  have : x ≠ 0 := by rintro rfl; exact h hx
  simpa using this

/-- C6: for every non-zero status, `onConnected` on a console with nothing pending
and not connected leaves exactly the text `"Fail to connect to the debug
console\r\n"` pending (one line, one terminator), leaves `isConnected_` false and
`pipe_` null, starts no read and posts one message; the next drain writes that
one line and nothing else. -/
theorem connect_failure_reported_once (status : Int) (hst : status ≠ 0) (s : DebugConsole)
    (hp : s.pendingTextOutput_ = []) (hc : s.isConnected_ = false) :
    (onConnected status s).pendingTextOutput_ = failText ∧
    failText = ascii "Fail to connect to the debug console\r\n" ∧
    failText.count 10 = 1 ∧
    (onConnected status s).isConnected_ = false ∧
    (onConnected status s).pipe_ = false ∧
    (onConnected status s).readsStarted = s.readsStarted ∧
    (onConnected status s).postedMessages = s.postedMessages + 1 ∧
    ∃ s2, wmDataReceived (onConnected status s) = some s2 ∧
      writtenTexts s2.richEdit = writtenTexts s.richEdit ++ [failText] ∧
      s2.pendingTextOutput_ = [] := by
  have hon : onConnected status s = { s with
      pendingTextOutput_ := failText, pipe_ := false,
      postedMessages := s.postedMessages + 1 } := by
    simp [onConnected, hst, hp, failText]
  have hsplit : (splitLines failText).filterMap
      (fun l => (from_bytes (addTerminator l)).map wcstr) = [failText] := by decide
  refine ⟨by rw [hon], rfl, by decide, by rw [hon]; exact hc, by rw [hon], by rw [hon],
    by rw [hon], ?_⟩
  rw [hon, wmDataReceived_eq]
  exact ⟨_, rfl, by simp [writtenTexts_append, writtenTexts_lines, hsplit], rfl⟩

/-- A connect that fails with status `-4058` on a new console whose pipe was just
allocated. -/
theorem connect_failure_reported_once_witness :
    (onConnected (-4058) { DebugConsole.new with pipe_ := true }).pendingTextOutput_ = failText :=
  (connect_failure_reported_once (-4058) (by decide) { DebugConsole.new with pipe_ := true }
    rfl rfl).1

/-- C7: for a command string `c` (no NUL inside), `sendCommand` queues exactly one
write, of payload `c`, when the pipe exists and `isConnected_` is set, and
otherwise queues nothing; it never touches the pending text or the connection
flags; the restart literal is 27 bytes long and the `IDC_RESTART_BACKENDS`
command sends exactly it. -/
theorem sendCommand_queues_exactly (c : List Byte) (hc : 0 ∉ c) (s : DebugConsole) :
    (s.pipe_ = true ∧ s.isConnected_ = true →
      sendCommand c s = { s with writesQueued := s.writesQueued ++ [c] }) ∧
    (¬ (s.pipe_ = true ∧ s.isConnected_ = true) → sendCommand c s = s) ∧
    (sendCommand c s).pendingTextOutput_ = s.pendingTextOutput_ ∧
    (sendCommand c s).isConnected_ = s.isConnected_ ∧
    (sendCommand c s).pipe_ = s.pipe_ ∧
    RESTART_BACKENDS = ascii "DEBUG_CMD:RESTART_BACKENDS\n" ∧
    RESTART_BACKENDS.length = 27 ∧
    0 ∉ RESTART_BACKENDS ∧
    ∀ idcRestart : Nat, dialogWndProc idcRestart (WinMsg.WM_COMMAND idcRestart) s
      = some (true, sendCommand RESTART_BACKENDS s) := by
  have hcs := cstr_of_not_mem c hc
  refine ⟨?_, ?_, ?_, ?_, ?_, rfl, by decide, by decide, fun idc => by simp [dialogWndProc]⟩
  · rintro ⟨h1, h2⟩
    simp [sendCommand, h1, h2, hcs]
  · intro h
    unfold sendCommand
    rw [if_neg]
    simpa using h
  all_goals
    unfold sendCommand
    split <;> rfl

/-- The restart command sent on a connected console. -/
theorem sendCommand_queues_exactly_witness :
    sendCommand RESTART_BACKENDS connectedConsole
      = { connectedConsole with writesQueued := connectedConsole.writesQueued ++ [RESTART_BACKENDS] } :=
  (sendCommand_queues_exactly RESTART_BACKENDS (by decide) connectedConsole).1 ⟨rfl, rfl⟩

/-- C8 fails as stated: on a connected console a read that ends with `UV_EOF`
leaves `isConnected_` set, and the restart command sent afterwards is queued. -/
theorem read_error_keeps_connected :
    (onDataReceived UV_EOF (some []) connectedConsole).isConnected_ = true ∧
    (sendCommand RESTART_BACKENDS (onDataReceived UV_EOF (some []) connectedConsole)).writesQueued
      = [RESTART_BACKENDS] := by
  decide

/-- C8, as the code has it: a read with `nread < 0` (an error or end of stream)
only writes `"Error\n"` to `cerr`: `isConnected_`, `pipe_` and the pending text
are unchanged, no message is posted, and a `sendCommand` issued afterwards queues
what it would have queued before. -/
theorem read_error_changes_nothing (nread : Int) (hn : nread < 0) (base : Option (List Byte))
    (s : DebugConsole) :
    onDataReceived nread base s = { s with cerr := s.cerr ++ ascii "Error\n" } ∧
    (onDataReceived nread base s).isConnected_ = s.isConnected_ ∧
    (onDataReceived nread base s).pipe_ = s.pipe_ ∧
    (onDataReceived nread base s).pendingTextOutput_ = s.pendingTextOutput_ ∧
    (onDataReceived nread base s).postedMessages = s.postedMessages ∧
    ∀ c : List Byte,
      (sendCommand c (onDataReceived nread base s)).writesQueued = (sendCommand c s).writesQueued := by
  have hon : onDataReceived nread base s = { s with cerr := s.cerr ++ ascii "Error\n" } := by
    simp [onDataReceived, hn]
  refine ⟨hon, by rw [hon], by rw [hon], by rw [hon], by rw [hon], fun c => ?_⟩
  rw [hon]
  unfold sendCommand
  split <;> rfl

/-- A read that fails with status `-1` on a connected console. -/
theorem read_error_changes_nothing_witness :
    (onDataReceived (-1) none connectedConsole).isConnected_ = connectedConsole.isConnected_ :=
  (read_error_changes_nothing (-1) (by decide) none connectedConsole).2.1

/-- C9, the code at the failing input: when `GetUserNameW` fails, `connectPipe`
still issues one connect request, for the string found in the uninitialised
array `pipe_name`. -/
theorem connectPipe_without_identity (stack : List Byte) (s : DebugConsole) :
    connectPipe none stack s
      = some { s with pipe_ := true, connectRequests := s.connectRequests ++ [cstr stack] } ∧
    (connectPipe none (ascii "junk") DebugConsole.new).map (fun s1 => s1.connectRequests)
      = some [ascii "junk"] := by
  exact ⟨rfl, by decide⟩

theorem cstr_append_nul (c rest : List Byte) (h : 0 ∉ c) : cstr (c ++ 0 :: rest) = c := by
  unfold cstr
  induction c with
  | nil => simp
  | cons x xs ih =>
    have hx : x ≠ 0 := by rintro rfl; simp at h
    have hxs : 0 ∉ xs := fun hm => h (by simp [hm])
    simp [List.takeWhile_cons, hx, ih hxs]

theorem encodeWChar_not_nul (c : Nat) (h : c ≠ 0) : 0 ∉ encodeWChar c := by
  unfold encodeWChar
  split_ifs
  · simpa using h.symm
  · simp only [List.mem_cons, List.mem_singleton, List.not_mem_nil, or_false, not_or]
    exact ⟨Nat.ne_of_lt (by omega), Nat.ne_of_lt (by omega)⟩
  · simp only [List.mem_cons, List.mem_singleton, List.not_mem_nil, or_false, not_or]
    exact ⟨Nat.ne_of_lt (by omega), Nat.ne_of_lt (by omega), Nat.ne_of_lt (by omega)⟩

theorem to_bytes_not_nul (name : List WChar) (h : 0 ∉ name) : 0 ∉ to_bytes name := by
  induction name with
  | nil => simp [to_bytes]
  | cons c cs ih =>
    have hc : c ≠ 0 := by rintro rfl; simp at h
    have hcs : 0 ∉ cs := fun hm => h (by simp [hm])
    have h1 := encodeWChar_not_nul c hc
    have h2 := ih hcs
    simp only [to_bytes, List.map_cons, List.flatten_cons, List.mem_append, not_or] at h2 ⊢
    exact ⟨h1, h2⟩

theorem to_bytes_append_nul (name : List WChar) :
    to_bytes (name ++ [0]) = to_bytes name ++ [0] := by
  simp [to_bytes, encodeWChar]

theorem sprintfPipeName_eq (name : List WChar) (h : 0 ∉ name) :
    sprintfPipeName (to_bytes (name ++ [0])) = pipeHead ++ to_bytes name ++ pipeTail ++ [0] := by
  have hd : cstr (ascii "Debug") = ascii "Debug" := by decide
  have ht : ascii "\\PIME\\" ++ ascii "Debug" = pipeTail := by decide
  unfold sprintfPipeName
  rw [to_bytes_append_nul, cstr_append_nul _ _ (to_bytes_not_nul name h), hd]
  simp only [List.append_assoc, pipeHead]
  rw [← ht]
  simp

theorem to_bytes_replicate (n : Nat) : to_bytes (List.replicate n 97) = List.replicate n 97 := by
  induction n with
  | zero => simp [to_bytes]
  | succ k ih =>
    simp only [to_bytes] at ih
    simp [to_bytes, List.replicate_succ, encodeWChar, ih]

/-- The address `connectPipe` connects to for a user name that fits: the fixed
head, the UTF-8 bytes of the name, the fixed tail. -/
theorem connectPipe_address (name : List WChar) (h0 : 0 ∉ name)
    (hfit : (to_bytes name).length + 21 ≤ MAX_PATH) (stack : List Byte) (s : DebugConsole) :
    connectPipe (some name) stack s = some { s with
      pipe_ := true,
      connectRequests := s.connectRequests ++ [pipeHead ++ to_bytes name ++ pipeTail] } := by
  have hlen : (sprintfPipeName (to_bytes (name ++ [0]))).length ≤ MAX_PATH := by
    rw [sprintfPipeName_eq name h0]
    have h1 : pipeHead.length = 9 := by decide
    have h2 : pipeTail.length = 11 := by decide
    simp only [List.length_append, h1, h2, List.length_singleton]
    omega
  have hz : 0 ∉ pipeHead ++ to_bytes name ++ pipeTail := by
    have h1 : 0 ∉ pipeHead := by decide
    have h2 : 0 ∉ pipeTail := by decide
    simp only [List.mem_append, not_or]
    exact ⟨⟨h1, to_bytes_not_nul name h0⟩, h2⟩
  have hc : cstr (sprintfPipeName (to_bytes (name ++ [0])))
      = pipeHead ++ to_bytes name ++ pipeTail := by
    rw [sprintfPipeName_eq name h0]
    exact cstr_append_nul _ [] hz
  simp only [connectPipe, hlen, if_true, Option.map_some', hc]

/-- C10, the code at the failing input: for a user name of 240 letters, within
`UNLEN`, `sprintf` stores 261 bytes into the `MAX_PATH` = 260 bytes of
`pipe_name`. -/
theorem pipe_name_overruns_buffer :
    longUserName.length = 240 ∧ longUserName.length ≤ UNLEN ∧ 0 ∉ longUserName ∧
    (sprintfPipeName (to_bytes (longUserName ++ [0]))).length = 261 ∧
    MAX_PATH = 260 ∧
    ∀ (stack : List Byte) (s : DebugConsole), connectPipe (some longUserName) stack s = none := by
  have hl : longUserName.length = 240 := List.length_replicate _ _
  have h0 : 0 ∉ longUserName := fun hm =>
    absurd (List.eq_of_mem_replicate hm) (by decide)
  have h : (sprintfPipeName (to_bytes (longUserName ++ [0]))).length = 261 := by
    have h1 : pipeHead.length = 9 := by decide
    have h2 : pipeTail.length = 11 := by decide
    rw [sprintfPipeName_eq _ h0]
    unfold longUserName
    rw [to_bytes_replicate]
    simp only [List.length_append, List.length_replicate, h1, h2, List.length_singleton]
  refine ⟨hl, by rw [hl]; decide, h0, h, rfl, fun stack s => ?_⟩
  simp only [connectPipe, h, MAX_PATH]
  rfl

end PIME
